import Mathlib

/-!
Shallow embedding of `src/main.ts` of container-registry-prune-action.

Time is embedded as `Int` (an epoch instant; `Temporal.Instant.compare a b === -1`
becomes `a < b`).  Machine `id` values are embedded as `Int`.  Fallible code
returns `Except`.  The mutable `retained` set and the `deleted` accumulator are
threaded explicitly; an exception thrown while they are partially updated
carries the state reached at throw time, mirroring the mutation semantics of
the source.
-/

/-- Container metadata of a package version (`version.metadata.container`). -/
structure ContainerMetadata where
  tags : List String
deriving DecidableEq

/-- The `metadata` field of a package version. -/
structure VersionMetadata where
  container : Option ContainerMetadata
deriving DecidableEq

/-- One stored package version, as listed by the packages API.
`updated_at` is the parse of the source's `updated_at` string into an instant. -/
structure PackageVersion where
  id : Int
  name : String
  metadata : Option VersionMetadata
  updated_at : Int
deriving DecidableEq

/-- A compiled minimatch pattern, at the boundary used by the source: the source
only consults `pattern.match(tag)`, `pattern.negate`, `pattern.comment` and
`pattern.empty`.  With `flipNegate: true`, `match` does not negate its result;
the `!` prefix only sets `negate`.  `comment` is true for `#`-lines, `empty`
for blank lines. -/
structure GlobRule where
  matchTag : String → Bool
  negate : Bool
  comment : Bool
  empty : Bool

/-- Modelled from the minimatch boundary: `new Minimatch('**', minimatchOptions)`
(with `dot: true`) matches every tag string, is not negated, and is neither a
comment nor empty. -/
def catchAllRule : GlobRule :=
  { matchTag := fun _ => true, negate := false, comment := false, empty := false }

/-- The `tagPatterns` pipeline of `main`: keep non-comment, non-empty rules,
reverse them (so that `find` picks the LAST authored rule that matches), and,
when the reversed list is nonempty and `allNegated` holds, push the `'**'`
catch-all at the end (lowest precedence). -/
def buildTagPatterns (rules : List GlobRule) : List GlobRule :=
  let tagPatterns := (rules.filter fun r => !r.comment && !r.empty).reverse
  if 0 < tagPatterns.length then
    if !(tagPatterns.any fun pattern => !pattern.negate) then
      tagPatterns ++ [catchAllRule]
    else tagPatterns
  else tagPatterns

/-- The configured (non-blank, non-comment) rules, in authoring order. -/
def configuredRules (rules : List GlobRule) : List GlobRule :=
  rules.filter fun r => !r.comment && !r.empty

/-- Modelled from the spec: "last-declared rule that matches the tag wins";
a tag is matching iff the last rule that matches it is not an exclude rule;
if no rule matches, the tag is non-matching.  Stated over a rule list in
authoring order. -/
def lastMatchingRuleVerdict (rules : List GlobRule) (tag : String) : Bool :=
  match rules.reverse.find? (fun r => r.matchTag tag) with
  | some r => !r.negate
  | none => false

/-- Modelled from the spec: the effective rule list in authoring order — the
configured rules, preceded (lowest precedence) by the implicit catch-all when
the configuration is nonempty and exclude-only. -/
def effectiveRules (rules : List GlobRule) : List GlobRule :=
  let f := configuredRules rules
  if 0 < f.length ∧ f.all (fun r => r.negate) then catchAllRule :: f else f

/-- The run-scoped policy configuration.  The constructor of the source derives
each deadline once as `now − duration` (see `RetentionPolicy.create`); here the
three derived optional deadline instants are the fields. -/
structure RetentionPolicy where
  tagPatterns : List GlobRule
  matchingTagRetentionDeadline : Option Int
  mismatchingTagRetentionDeadline : Option Int
  untaggedRetentionDeadline : Option Int

/-- The constructor logic of `RetentionPolicy`: each deadline is
`now.subtract(duration)` when the duration is set, otherwise `null`. -/
def RetentionPolicy.create (tagPatterns : List GlobRule) (now : Int)
    (matchingDur mismatchingDur untaggedDur : Option Int) : RetentionPolicy :=
  { tagPatterns := tagPatterns
    matchingTagRetentionDeadline := matchingDur.map (fun d => now - d)
    mismatchingTagRetentionDeadline := mismatchingDur.map (fun d => now - d)
    untaggedRetentionDeadline := untaggedDur.map (fun d => now - d) }

/-- Method `isMatchingTag`: the first pattern (of the reversed list) that matches
decides; the tag is matching iff that pattern is not negated. -/
def RetentionPolicy.isMatchingTag (p : RetentionPolicy) (tag : String) : Bool :=
  match p.tagPatterns.find? (fun pattern => pattern.matchTag tag) with
  | some m => !m.negate
  | none => false

/-- Method `getRetentionDeadline`: throws on missing container metadata; untagged →
untagged deadline; none matching → mismatching deadline; all matching →
matching deadline; mixed → `null` if either deadline is unset, else the
earlier (`compare === -1` ? matching : mismatching). -/
def RetentionPolicy.getRetentionDeadline (p : RetentionPolicy)
    (version : PackageVersion) : Except String (Option Int) :=
  match version.metadata with
  | none => .error "Missing container metadata"
  | some metadata =>
    match metadata.container with
    | none => .error "Missing container metadata"
    | some container =>
      let tags := container.tags
      if tags.length = 0 then .ok p.untaggedRetentionDeadline
      else
        let matching := tags.filter (fun tag => p.isMatchingTag tag)
        if matching.length = 0 then .ok p.mismatchingTagRetentionDeadline
        else if tags.length = matching.length then .ok p.matchingTagRetentionDeadline
        else
          match p.matchingTagRetentionDeadline, p.mismatchingTagRetentionDeadline with
          | some m, some mm => .ok (some (if m < mm then m else mm))
          | some _, none => .ok none
          | none, _ => .ok none

/-- Method `isOutdated`: no deadline → `false`; otherwise `updated_at < deadline`. -/
def RetentionPolicy.isOutdated (p : RetentionPolicy) (version : PackageVersion) :
    Except String Bool :=
  match p.getRetentionDeadline version with
  | .error e => .error e
  | .ok none => .ok false
  | .ok (some deadline) => .ok (decide (version.updated_at < deadline))

/-- The recognized index (manifest list) media types. -/
def indexTypes : List String :=
  ["application/vnd.docker.distribution.manifest.list.v2+json",
   "application/vnd.oci.image.index.v1+json"]

/-- All recognized manifest media types: the index types plus the leaf
(single-platform) manifest types. -/
def manifestTypes : List String :=
  indexTypes ++
  ["application/vnd.docker.distribution.manifest.v2+json",
   "application/vnd.oci.image.manifest.v1+json"]

/-- A child-manifest descriptor of an index manifest. -/
structure Descriptor where
  mediaType : Option String
  digest : Option String
deriving DecidableEq

/-- A manifest document fetched from the registry content API. -/
structure Manifest where
  mediaType : Option String
  manifests : Option (List Descriptor)
deriving DecidableEq

/-- The validation part of `DockerRepository.fetchManifest`: the HTTP exchange
is external; `result` is the decoded JSON body (or `none` when the registry
returned no body).  A missing body and an unrecognized `mediaType` are fatal. -/
def fetchManifest (url : String) (result : Option Manifest) : Except String Manifest :=
  match result with
  | none => .error ("Manifest not found: " ++ url)
  | some m =>
    match m.mediaType with
    | none => .error "Unknown mediaType: undefined"
    | some mt =>
      if manifestTypes.contains mt then .ok m
      else .error ("Unknown mediaType: " ++ mt)

/-- The `every((value, index) => value.id === b[index]?.id)` loop of
`getAllVersionsStable`: pointwise identifier comparison, `false` as soon as `b`
runs out, `true` when `a` runs out. -/
def idsMatch : List PackageVersion → List PackageVersion → Bool
  | [], _ => true
  | _ :: _, [] => false
  | v :: rest, w :: wrest => v.id == w.id && idsMatch rest wrest

/-- Method `getAllVersionsStable`: fetch the full list twice (`a` then `b`); accept —
returning the second fetch — only if the counts agree and the identifier
sequences agree; otherwise throw. -/
def getAllVersionsStable (a b : List PackageVersion) :
    Except String (List PackageVersion) :=
  if a.length = b.length ∧ idsMatch a b then .ok b
  else .error "Possible concurrent modification detected, pagination results may be incorrect"

/-- The catalog loop of `main`: for each listed version, fail on a duplicate
`name`, else record the version and its fetched manifest, preserving order.
`responses` is the registry content API: the decoded body served for each
reference. -/
def buildCatalog (responses : String → Option Manifest) :
    List PackageVersion → List (String × PackageVersion) → List (String × Manifest) →
    Except String (List (String × PackageVersion) × List (String × Manifest))
  | [], versions, manifests => .ok (versions, manifests)
  | v :: rest, versions, manifests =>
    if (versions.map Prod.fst).contains v.name then
      .error ("Duplicate name: " ++ v.name)
    else
      match fetchManifest v.name (responses v.name) with
      | .error e => .error e
      | .ok m => buildCatalog responses rest (versions ++ [(v.name, v)]) (manifests ++ [(v.name, m)])

/-- The child loop of `retain`, abstracted over the recursive call `recur`:
for each descriptor, throw if the digest is missing, else retain the digest and
continue with the grown set.  An error carries the set reached at throw time. -/
def retainChildren (recur : List String → String → Except (String × List String) (List String))
    (parent : String) :
    List String → List Descriptor → Except (String × List String) (List String)
  | s, [] => .ok s
  | s, d :: rest =>
    match d.digest with
    | none => .error ("Missing digest in descriptor of child manifest of " ++ parent, s)
    | some digest =>
      match recur s digest with
      | .error e => .error e
      | .ok s2 => retainChildren recur parent s2 rest

/-- Function `retain(name)`: return if already retained; throw if the manifest cache has
no entry; add `name`; if the manifest is an index type, retain every child
descriptor's digest.  `fuel` bounds the recursion depth (the source recursion
is bounded by the manifest-cache size, since every recursive expansion first
adds a fresh cached name); one unit is consumed per expansion into children. -/
def retain (cachedManifests : List (String × Manifest)) :
    Nat → List String → String → Except (String × List String) (List String)
  | fuel, s, name =>
    if s.contains name then .ok s
    else
      match List.lookup name cachedManifests with
      | none => .error ("Missing manifest: " ++ name, s)
      | some manifest =>
        match manifest.mediaType with
        | none => .ok (name :: s)
        | some mediaType =>
          if indexTypes.contains mediaType then
            match fuel with
            | 0 => .error ("Recursion limit exceeded", name :: s)
            | Nat.succ f =>
              retainChildren (fun s2 digest => retain cachedManifests f s2 digest) name
                (name :: s) (manifest.manifests.getD [])
          else .ok (name :: s)

/-- The mark loop of `main`: `retain` every catalog entry that is not outdated.
A thrown error aborts the run with its message. -/
def markPhase (policy : RetentionPolicy) (cachedManifests : List (String × Manifest))
    (fuel : Nat) :
    List (String × PackageVersion) → List String → Except String (List String)
  | [], s => .ok s
  | (name, version) :: rest, s =>
    match policy.isOutdated version with
    | .error e => .error e
    | .ok b =>
      if b then markPhase policy cachedManifests fuel rest s
      else
        match retain cachedManifests fuel s name with
        | .error e => .error e.1
        | .ok s2 => markPhase policy cachedManifests fuel rest s2

/-- The sweep loop of `main`: skip retained names; otherwise issue the delete
call (unless dry-run) and append the version to `deleted` on success.  Returns
the `deleted` accumulator as read by the `finally` block, the identifiers of
the delete calls actually issued, and the error that aborted the loop, if any. -/
def sweep (deleteResult : Int → Except String Unit) (dryRun : Bool)
    (retained : List String) :
    List PackageVersion → List Int → List (String × PackageVersion) →
    List PackageVersion × List Int × Option String
  | deleted, issued, [] => (deleted, issued, none)
  | deleted, issued, (name, version) :: rest =>
    if retained.contains name then sweep deleteResult dryRun retained deleted issued rest
    else
      if dryRun then sweep deleteResult dryRun retained (deleted ++ [version]) issued rest
      else
        match deleteResult version.id with
        | .error e => (deleted, issued ++ [version.id], some e)
        | .ok _ => sweep deleteResult dryRun retained (deleted ++ [version]) (issued ++ [version.id]) rest

/-- The collaborators and configuration of one run. -/
structure RunEnv where
  fetchA : List PackageVersion
  fetchB : List PackageVersion
  responses : String → Option Manifest
  deleteResult : Int → Except String Unit
  dryRun : Bool
  policy : RetentionPolicy

/-- The observable outcome of one run: the `deleted-count`/`deleted-json`
outputs (set by the `finally` block; `none` when the run aborted before the
sweep), the delete calls issued, and the error reported via `setFailed`. -/
structure RunOutcome where
  deletedOutput : Option (List PackageVersion)
  issuedDeletes : List Int
  failure : Option String
deriving DecidableEq

/-- The orchestration of `main`: stable catalog, manifest cache, mark every
policy survivor, sweep the complement.  Any error before the sweep aborts the
run with no outputs and no delete calls. -/
def mainRun (env : RunEnv) : RunOutcome :=
  match getAllVersionsStable env.fetchA env.fetchB with
  | .error e => { deletedOutput := none, issuedDeletes := [], failure := some e }
  | .ok vs =>
    match buildCatalog env.responses vs [] [] with
    | .error e => { deletedOutput := none, issuedDeletes := [], failure := some e }
    | .ok (versions, manifests) =>
      match markPhase env.policy manifests (manifests.length + 1) versions [] with
      | .error e => { deletedOutput := none, issuedDeletes := [], failure := some e }
      | .ok retained =>
        match sweep env.deleteResult env.dryRun retained [] [] versions with
        | (deleted, issued, err) =>
          { deletedOutput := some deleted, issuedDeletes := issued, failure := err }

/-! ## Tag classifier lemmas -/

theorem all_negate_eq_not_any (l : List GlobRule) :
    (l.all fun r => r.negate) = !(l.any fun r => !r.negate) := by
  induction l with
  | nil => rfl
  | cons a rest ih => simp [List.all_cons, List.any_cons, ih]

/-- Claim C3: for every rule list and every tag string, the classifier built by
`main` (filter, reverse, conditional catch-all, first-match-of-reversed-list)
reports the tag as matching iff the last rule in authoring order of the
effective rule list (the configured rules, plus the implicit lowest-precedence
catch-all for nonempty exclude-only configurations) that matches the tag is not
an exclude rule; if no rule matches, `lastMatchingRuleVerdict` is `false`, so
the tag is non-matching. -/
theorem tag_classifier_last_rule_wins (rules : List GlobRule) (tag : String)
    (d1 d2 d3 : Option Int) :
    RetentionPolicy.isMatchingTag
      { tagPatterns := buildTagPatterns rules,
        matchingTagRetentionDeadline := d1,
        mismatchingTagRetentionDeadline := d2,
        untaggedRetentionDeadline := d3 } tag
      = lastMatchingRuleVerdict (effectiveRules rules) tag := by
  unfold RetentionPolicy.isMatchingTag buildTagPatterns effectiveRules lastMatchingRuleVerdict
  unfold configuredRules
  by_cases hnil : (rules.filter fun r => !r.comment && !r.empty) = []
  · simp [hnil]
  · have hlen : 0 < (rules.filter fun r => !r.comment && !r.empty).length :=
      List.length_pos.mpr hnil
    have hlenr : 0 < ((rules.filter fun r => !r.comment && !r.empty).reverse).length := by
      rw [List.length_reverse]; exact hlen
    by_cases hneg : ((rules.filter fun r => !r.comment && !r.empty).all fun r => r.negate) = true
    · have hany : (((rules.filter fun r => !r.comment && !r.empty).reverse).any
          fun pattern => !pattern.negate) = false := by
        rw [List.any_reverse]
        rw [all_negate_eq_not_any] at hneg
        cases h : ((rules.filter fun r => !r.comment && !r.empty).any fun r => !r.negate) with
        | false => rfl
        | true => rw [h] at hneg; simp at hneg
      rw [if_pos (And.intro hlen hneg), List.reverse_cons]
      simp only [if_pos hlenr, hany, Bool.not_false, if_true]
    · have hany : (((rules.filter fun r => !r.comment && !r.empty).reverse).any
          fun pattern => !pattern.negate) = true := by
        rw [List.any_reverse]
        rw [all_negate_eq_not_any] at hneg
        cases h : ((rules.filter fun r => !r.comment && !r.empty).any fun r => !r.negate) with
        | true => rfl
        | false => rw [h] at hneg; simp at hneg
      have hcond : ¬(0 < (rules.filter fun r => !r.comment && !r.empty).length ∧
          ((rules.filter fun r => !r.comment && !r.empty).all fun r => r.negate) = true) := by
        intro h; exact hneg h.2
      rw [if_neg hcond]
      simp only [if_pos hlenr, hany, Bool.not_true]
      simp

/-- Claim C4, counterexample: the empty configuration.  Every configured
(non-blank, non-comment) rule of it is — vacuously — an exclude rule, yet no
implicit catch-all is appended (the source only appends when
`tagPatterns.length > 0`), and the tag `latest`, though matched by no exclude
rule, is classified as non-matching. -/
theorem empty_exclude_only_config_refutes_catch_all :
    buildTagPatterns [] = [] ∧
    (∀ r ∈ configuredRules [], r.negate = true) ∧
    (∀ r ∈ configuredRules [], r.matchTag "latest" = false) ∧
    RetentionPolicy.isMatchingTag
      { tagPatterns := buildTagPatterns [],
        matchingTagRetentionDeadline := none,
        mismatchingTagRetentionDeadline := none,
        untaggedRetentionDeadline := none } "latest" = false := by
  refine ⟨rfl, ?_, ?_, rfl⟩ <;> intro r hr <;> simp [configuredRules] at hr

/-- Claim C4 as amended: for every configuration with AT LEAST ONE configured
(non-blank, non-comment) rule in which every configured rule is an exclude
rule, the implicit catch-all match-everything rule is appended with the lowest
precedence (the end of the reversed pattern list), so that every tag not
matched by any exclude rule is classified as matching. -/
theorem exclude_only_config_appends_catch_all (rules : List GlobRule)
    (d1 d2 d3 : Option Int)
    (hne : configuredRules rules ≠ [])
    (hall : ∀ r ∈ configuredRules rules, r.negate = true) :
    buildTagPatterns rules = (configuredRules rules).reverse ++ [catchAllRule] ∧
    (∀ tag, (∀ r ∈ configuredRules rules, r.matchTag tag = false) →
      RetentionPolicy.isMatchingTag
        { tagPatterns := buildTagPatterns rules,
          matchingTagRetentionDeadline := d1,
          mismatchingTagRetentionDeadline := d2,
          untaggedRetentionDeadline := d3 } tag = true) := by
  have hlen : 0 < (configuredRules rules).length := List.length_pos.mpr hne
  have hlenr : 0 < ((configuredRules rules).reverse).length := by
    rw [List.length_reverse]; exact hlen
  have hany : (((configuredRules rules).reverse).any fun pattern => !pattern.negate) = false := by
    rw [List.any_reverse]
    cases h : ((configuredRules rules).any fun r => !r.negate) with
    | false => rfl
    | true =>
      rw [List.any_eq_true] at h
      obtain ⟨r, hr, hneg⟩ := h
      rw [hall r hr] at hneg
      simp at hneg
  have hbuild : buildTagPatterns rules = (configuredRules rules).reverse ++ [catchAllRule] := by
    unfold buildTagPatterns configuredRules
    have : ((List.filter (fun r => !r.comment && !r.empty) rules).reverse.any
        fun pattern => !pattern.negate) = false := hany
    have hlenr' : 0 < ((List.filter (fun r => !r.comment && !r.empty) rules).reverse).length :=
      hlenr
    simp only [this, if_pos hlenr', Bool.not_false, if_true]
  refine ⟨hbuild, ?_⟩
  intro tag hmiss
  unfold RetentionPolicy.isMatchingTag
  rw [hbuild]
  have hnone : ((configuredRules rules).reverse.find? fun pattern => pattern.matchTag tag)
      = none := by
    rw [List.find?_eq_none]
    intro r hr
    have : r ∈ configuredRules rules := by
      rw [← List.mem_reverse]; exact hr
    simp [hmiss r this]
  rw [List.find?_append, hnone]
  rfl

/-! ## Retention policy lemmas -/

/-- Claim C2: for a version whose non-empty tag set mixes matching and
non-matching tags, `getRetentionDeadline` returns `null` when either the
matching or the mismatching deadline is unset, and otherwise the earlier
(temporally smaller) of the two. -/
theorem mixed_tags_deadline (p : RetentionPolicy) (v : PackageVersion)
    (md : VersionMetadata) (cont : ContainerMetadata)
    (hmd : v.metadata = some md) (hc : md.container = some cont)
    (hsome : ∃ t ∈ cont.tags, p.isMatchingTag t = true)
    (hnot : ∃ t ∈ cont.tags, p.isMatchingTag t = false) :
    ((p.matchingTagRetentionDeadline = none ∨ p.mismatchingTagRetentionDeadline = none) →
      p.getRetentionDeadline v = .ok none) ∧
    (∀ m mm, p.matchingTagRetentionDeadline = some m →
      p.mismatchingTagRetentionDeadline = some mm →
      p.getRetentionDeadline v = .ok (some (min m mm))) := by
  obtain ⟨t1, ht1, hm1⟩ := hsome
  obtain ⟨t2, ht2, hm2⟩ := hnot
  have hlen : cont.tags.length ≠ 0 := by
    intro h
    rw [List.length_eq_zero] at h
    rw [h] at ht1
    exact absurd ht1 (List.not_mem_nil t1)
  have hfil : (cont.tags.filter fun tag => p.isMatchingTag tag).length ≠ 0 := by
    intro h
    rw [List.length_eq_zero] at h
    have : t1 ∈ cont.tags.filter fun tag => p.isMatchingTag tag :=
      List.mem_filter.mpr ⟨ht1, hm1⟩
    rw [h] at this
    exact absurd this (List.not_mem_nil t1)
  have hlt : (cont.tags.filter fun tag => p.isMatchingTag tag).length < cont.tags.length := by
    rw [List.length_filter_lt_length_iff_exists]
    exact ⟨t2, ht2, by simp [hm2]⟩
  have hne : ¬(cont.tags.length = (cont.tags.filter fun tag => p.isMatchingTag tag).length) := by
    omega
  simp only [RetentionPolicy.getRetentionDeadline, hmd, hc, if_neg hlen, if_neg hfil,
    if_neg hne]
  constructor
  · intro h
    rcases h with h | h
    · rw [h]
    · rw [h]
      cases p.matchingTagRetentionDeadline <;> rfl
  · intro m mm hm hmm
    rw [hm, hmm]
    have hminv : (if m < mm then m else mm) = min m mm := by omega
    simp only [hminv]

/-- Claim C5: `isOutdated` is `ok true` exactly when the deadline is non-null
and the update instant is strictly earlier; a null-deadline version is never
outdated; and a version with empty tags gets exactly the untagged deadline,
whatever the glob rules. -/
theorem outdated_iff_before_deadline (p : RetentionPolicy) (v : PackageVersion) :
    (p.isOutdated v = .ok true ↔
      ∃ d, p.getRetentionDeadline v = .ok (some d) ∧ v.updated_at < d) ∧
    (p.getRetentionDeadline v = .ok none → p.isOutdated v = .ok false) ∧
    (∀ md cont, v.metadata = some md → md.container = some cont → cont.tags = [] →
      p.getRetentionDeadline v = .ok p.untaggedRetentionDeadline) := by
  refine ⟨?_, ?_, ?_⟩
  · unfold RetentionPolicy.isOutdated
    cases h : p.getRetentionDeadline v with
    | error e =>
      simp only [h]
      constructor
      · intro hx; exact absurd hx (by simp)
      · intro ⟨d, hd, _⟩; exact Except.noConfusion hd
    | ok od =>
      cases od with
      | none =>
        simp only [h]
        constructor
        · intro hx; exact absurd hx (by simp)
        · intro ⟨d, hd, _⟩; exact absurd (Except.ok.inj hd) (by simp)
      | some d0 =>
        simp only [h]
        constructor
        · intro hx
          refine ⟨d0, rfl, ?_⟩
          have := Except.ok.inj hx
          exact of_decide_eq_true this
        · intro ⟨d, hd, hlt⟩
          have : d = d0 := by
            have := Except.ok.inj hd
            exact (Option.some.inj this).symm
          rw [this] at hlt
          rw [decide_eq_true hlt]
  · intro h
    unfold RetentionPolicy.isOutdated
    rw [h]
  · intro md cont hmd hc htags
    simp only [RetentionPolicy.getRetentionDeadline, hmd, hc, htags]
    rfl

/-! ## Reachability marker lemmas -/

theorem contains_true_iff (l : List String) (a : String) : l.contains a = true ↔ a ∈ l := by
  simp

theorem contains_false_iff (l : List String) (a : String) : l.contains a = false ↔ ¬(a ∈ l) := by
  rw [← contains_true_iff]
  cases h : l.contains a <;> simp

theorem retainChildren_sub
    (recur : List String → String → Except (String × List String) (List String))
    (hrec : ∀ s n s', recur s n = .ok s' → s ⊆ s') :
    ∀ (descs : List Descriptor) (s : List String) (parent : String) (s' : List String),
      retainChildren recur parent s descs = .ok s' → s ⊆ s' := by
  intro descs
  induction descs with
  | nil =>
    intro s parent s' h
    simp only [retainChildren] at h
    cases h
    exact fun x hx => hx
  | cons d rest ih =>
    intro s parent s' h
    simp only [retainChildren] at h
    cases hdg : d.digest with
    | none => rw [hdg] at h; exact Except.noConfusion h
    | some dg =>
      rw [hdg] at h
      dsimp only at h
      cases hr : recur s dg with
      | error e => rw [hr] at h; exact Except.noConfusion h
      | ok s2 =>
        rw [hr] at h
        dsimp only at h
        exact fun x hx => ih s2 parent s' h (hrec s dg s2 hr hx)

theorem retain_sub (M : List (String × Manifest)) :
    ∀ (fuel : Nat) (s : List String) (name : String) (s' : List String),
      retain M fuel s name = .ok s' → s ⊆ s' := by
  intro fuel
  induction fuel with
  | zero =>
    intro s name s' h
    rw [retain.eq_def] at h
    dsimp only at h
    by_cases hc : s.contains name = true
    · rw [if_pos hc] at h; cases h; exact fun x hx => hx
    · rw [if_neg hc] at h
      cases hlk : List.lookup name M with
      | none => rw [hlk] at h; exact Except.noConfusion h
      | some manifest =>
        rw [hlk] at h
        dsimp only at h
        cases hmt : manifest.mediaType with
        | none => rw [hmt] at h; cases h; exact fun x hx => List.mem_cons_of_mem _ hx
        | some mediaType =>
          rw [hmt] at h
          dsimp only at h
          by_cases hidx : indexTypes.contains mediaType = true
          · rw [if_pos hidx] at h
            exact Except.noConfusion h
          · rw [if_neg hidx] at h
            cases h; exact fun x hx => List.mem_cons_of_mem _ hx
  | succ f ih =>
    intro s name s' h
    rw [retain.eq_def] at h
    dsimp only at h
    by_cases hc : s.contains name = true
    · rw [if_pos hc] at h; cases h; exact fun x hx => hx
    · rw [if_neg hc] at h
      cases hlk : List.lookup name M with
      | none => rw [hlk] at h; exact Except.noConfusion h
      | some manifest =>
        rw [hlk] at h
        dsimp only at h
        cases hmt : manifest.mediaType with
        | none => rw [hmt] at h; cases h; exact fun x hx => List.mem_cons_of_mem _ hx
        | some mediaType =>
          rw [hmt] at h
          dsimp only at h
          by_cases hidx : indexTypes.contains mediaType = true
          · rw [if_pos hidx] at h
            have hsub := retainChildren_sub (fun s2 digest => retain M f s2 digest)
              (fun s2 n s2' hh => ih s2 n s2' hh) _ _ _ _ h
            exact fun x hx => hsub (List.mem_cons_of_mem _ hx)
          · rw [if_neg hidx] at h
            cases h; exact fun x hx => List.mem_cons_of_mem _ hx

theorem retain_mem (M : List (String × Manifest)) (fuel : Nat) (s : List String)
    (name : String) (s' : List String) (h : retain M fuel s name = .ok s') : name ∈ s' := by
  rw [retain.eq_def] at h
  dsimp only at h
  by_cases hc : s.contains name = true
  · rw [if_pos hc] at h; cases h; exact (contains_true_iff _ _).mp hc
  · rw [if_neg hc] at h
    cases hlk : List.lookup name M with
    | none => rw [hlk] at h; exact Except.noConfusion h
    | some manifest =>
      rw [hlk] at h
      dsimp only at h
      cases hmt : manifest.mediaType with
      | none => rw [hmt] at h; cases h; exact List.mem_cons_self _ _
      | some mediaType =>
        rw [hmt] at h
        dsimp only at h
        by_cases hidx : indexTypes.contains mediaType = true
        · rw [if_pos hidx] at h
          cases fuel with
          | zero => exact Except.noConfusion h
          | succ f =>
            have hsub := retainChildren_sub (fun s2 digest => retain M f s2 digest)
              (fun s2 n s2' hh => retain_sub M f s2 n s2' hh) _ _ _ _ h
            exact hsub (List.mem_cons_self _ _)
        · rw [if_neg hidx] at h; cases h; exact List.mem_cons_self _ _

theorem retainChildren_keys (M : List (String × Manifest))
    (recur : List String → String → Except (String × List String) (List String))
    (hrec : ∀ s n s', recur s n = .ok s' →
      ∀ x ∈ s', x ∈ s ∨ (List.lookup x M).isSome = true) :
    ∀ (descs : List Descriptor) (s : List String) (parent : String) (s' : List String),
      retainChildren recur parent s descs = .ok s' →
      ∀ x ∈ s', x ∈ s ∨ (List.lookup x M).isSome = true := by
  intro descs
  induction descs with
  | nil =>
    intro s parent s' h
    simp only [retainChildren] at h
    cases h
    exact fun x hx => Or.inl hx
  | cons d rest ih =>
    intro s parent s' h
    simp only [retainChildren] at h
    cases hdg : d.digest with
    | none => rw [hdg] at h; exact Except.noConfusion h
    | some dg =>
      rw [hdg] at h
      dsimp only at h
      cases hr : recur s dg with
      | error e => rw [hr] at h; exact Except.noConfusion h
      | ok s2 =>
        rw [hr] at h
        dsimp only at h
        intro x hx
        rcases ih s2 parent s' h x hx with hx2 | hsome
        · exact hrec s dg s2 hr x hx2
        · exact Or.inr hsome

theorem retain_keys (M : List (String × Manifest)) :
    ∀ (fuel : Nat) (s : List String) (name : String) (s' : List String),
      retain M fuel s name = .ok s' →
      ∀ x ∈ s', x ∈ s ∨ (List.lookup x M).isSome = true := by
  intro fuel
  induction fuel with
  | zero =>
    intro s name s' h
    rw [retain.eq_def] at h
    dsimp only at h
    by_cases hc : s.contains name = true
    · rw [if_pos hc] at h; cases h; exact fun x hx => Or.inl hx
    · rw [if_neg hc] at h
      cases hlk : List.lookup name M with
      | none => rw [hlk] at h; exact Except.noConfusion h
      | some manifest =>
        rw [hlk] at h
        dsimp only at h
        cases hmt : manifest.mediaType with
        | none =>
          rw [hmt] at h; cases h
          intro x hx
          rcases List.mem_cons.mp hx with rfl | hxs
          · right; rw [hlk]; rfl
          · exact Or.inl hxs
        | some mediaType =>
          rw [hmt] at h
          dsimp only at h
          by_cases hidx : indexTypes.contains mediaType = true
          · rw [if_pos hidx] at h
            exact Except.noConfusion h
          · rw [if_neg hidx] at h
            cases h
            intro x hx
            rcases List.mem_cons.mp hx with rfl | hxs
            · right; rw [hlk]; rfl
            · exact Or.inl hxs
  | succ f ih =>
    intro s name s' h
    rw [retain.eq_def] at h
    dsimp only at h
    by_cases hc : s.contains name = true
    · rw [if_pos hc] at h; cases h; exact fun x hx => Or.inl hx
    · rw [if_neg hc] at h
      cases hlk : List.lookup name M with
      | none => rw [hlk] at h; exact Except.noConfusion h
      | some manifest =>
        rw [hlk] at h
        dsimp only at h
        cases hmt : manifest.mediaType with
        | none =>
          rw [hmt] at h; cases h
          intro x hx
          rcases List.mem_cons.mp hx with rfl | hxs
          · right; rw [hlk]; rfl
          · exact Or.inl hxs
        | some mediaType =>
          rw [hmt] at h
          dsimp only at h
          by_cases hidx : indexTypes.contains mediaType = true
          · rw [if_pos hidx] at h
            intro x hx
            rcases retainChildren_keys M (fun s2 digest => retain M f s2 digest)
                (fun s2 n s2' hh => ih s2 n s2' hh) _ _ _ _ h x hx with hx1 | hsome
            · rcases List.mem_cons.mp hx1 with rfl | hxs
              · right; rw [hlk]; rfl
              · exact Or.inl hxs
            · exact Or.inr hsome
          · rw [if_neg hidx] at h
            cases h
            intro x hx
            rcases List.mem_cons.mp hx with rfl | hxs
            · right; rw [hlk]; rfl
            · exact Or.inl hxs

/-- A name is child-closed in a set `R`: when its cached manifest is an index
type, every child descriptor digest of it is in `R`. -/
def childClosed (M : List (String × Manifest)) (n : String) (R : List String) : Prop :=
  ∀ man, List.lookup n M = some man → ∀ mt, man.mediaType = some mt →
    indexTypes.contains mt = true →
    ∀ d ∈ man.manifests.getD [], ∀ dg, d.digest = some dg → dg ∈ R

theorem childClosed_mono (M : List (String × Manifest)) (n : String)
    (R R' : List String) (hsub : R ⊆ R') (h : childClosed M n R) : childClosed M n R' :=
  fun man hman mt hmt hidx d hd dg hdg => hsub (h man hman mt hmt hidx d hd dg hdg)

theorem retainChildren_digests (M : List (String × Manifest))
    (recur : List String → String → Except (String × List String) (List String))
    (hmem : ∀ s n s', recur s n = .ok s' → n ∈ s')
    (hsub : ∀ s n s', recur s n = .ok s' → s ⊆ s') :
    ∀ (descs : List Descriptor) (s : List String) (parent : String) (s' : List String),
      retainChildren recur parent s descs = .ok s' →
      ∀ d ∈ descs, ∀ dg, d.digest = some dg → dg ∈ s' := by
  intro descs
  induction descs with
  | nil =>
    intro s parent s' h d hd
    exact absurd hd (List.not_mem_nil d)
  | cons d rest ih =>
    intro s parent s' h
    simp only [retainChildren] at h
    cases hdg : d.digest with
    | none => rw [hdg] at h; exact Except.noConfusion h
    | some dg =>
      rw [hdg] at h
      dsimp only at h
      cases hr : recur s dg with
      | error e => rw [hr] at h; exact Except.noConfusion h
      | ok s2 =>
        rw [hr] at h
        dsimp only at h
        intro d' hd' dg' hdg'
        rcases List.mem_cons.mp hd' with heq | hmem'
        · have hdg2 : dg' = dg := by
            rw [heq, hdg] at hdg'
            exact (Option.some.inj hdg').symm
          rw [hdg2]
          exact retainChildren_sub recur hsub _ _ _ _ h (hmem s dg s2 hr)
        · exact ih s2 parent s' h d' hmem' dg' hdg'

theorem retainChildren_closed (M : List (String × Manifest))
    (recur : List String → String → Except (String × List String) (List String))
    (hcl : ∀ s n s', recur s n = .ok s' → ∀ x ∈ s', x ∈ s ∨ childClosed M x s')
    (hsub : ∀ s n s', recur s n = .ok s' → s ⊆ s') :
    ∀ (descs : List Descriptor) (s : List String) (parent : String) (s' : List String),
      retainChildren recur parent s descs = .ok s' →
      ∀ x ∈ s', x ∈ s ∨ childClosed M x s' := by
  intro descs
  induction descs with
  | nil =>
    intro s parent s' h
    simp only [retainChildren] at h
    cases h
    exact fun x hx => Or.inl hx
  | cons d rest ih =>
    intro s parent s' h
    simp only [retainChildren] at h
    cases hdg : d.digest with
    | none => rw [hdg] at h; exact Except.noConfusion h
    | some dg =>
      rw [hdg] at h
      dsimp only at h
      cases hr : recur s dg with
      | error e => rw [hr] at h; exact Except.noConfusion h
      | ok s2 =>
        rw [hr] at h
        dsimp only at h
        intro x hx
        rcases ih s2 parent s' h x hx with hx2 | hclx
        · rcases hcl s dg s2 hr x hx2 with hxs | hclx2
          · exact Or.inl hxs
          · exact Or.inr (childClosed_mono M x s2 s'
              (retainChildren_sub recur hsub _ _ _ _ h) hclx2)
        · exact Or.inr hclx

theorem retain_closed (M : List (String × Manifest)) :
    ∀ (fuel : Nat) (s : List String) (name : String) (s' : List String),
      retain M fuel s name = .ok s' →
      ∀ x ∈ s', x ∈ s ∨ childClosed M x s' := by
  intro fuel
  induction fuel with
  | zero =>
    intro s name s' h
    rw [retain.eq_def] at h
    dsimp only at h
    by_cases hc : s.contains name = true
    · rw [if_pos hc] at h; cases h; exact fun x hx => Or.inl hx
    · rw [if_neg hc] at h
      cases hlk : List.lookup name M with
      | none => rw [hlk] at h; exact Except.noConfusion h
      | some manifest =>
        rw [hlk] at h
        dsimp only at h
        cases hmt : manifest.mediaType with
        | none =>
          rw [hmt] at h; cases h
          intro x hx
          rcases List.mem_cons.mp hx with rfl | hxs
          · right
            intro man hman mt hmt2 hidx2 d hd dg hdg
            rw [hlk] at hman
            cases Option.some.inj hman
            rw [hmt] at hmt2
            exact Option.noConfusion hmt2
          · exact Or.inl hxs
        | some mediaType =>
          rw [hmt] at h
          dsimp only at h
          by_cases hidx : indexTypes.contains mediaType = true
          · rw [if_pos hidx] at h
            exact Except.noConfusion h
          · rw [if_neg hidx] at h
            cases h
            intro x hx
            rcases List.mem_cons.mp hx with rfl | hxs
            · right
              intro man hman mt hmt2 hidx2 d hd dg hdg
              rw [hlk] at hman
              cases Option.some.inj hman
              rw [hmt] at hmt2
              cases Option.some.inj hmt2
              exact absurd hidx2 hidx
            · exact Or.inl hxs
  | succ f ih =>
    intro s name s' h
    rw [retain.eq_def] at h
    dsimp only at h
    by_cases hc : s.contains name = true
    · rw [if_pos hc] at h; cases h; exact fun x hx => Or.inl hx
    · rw [if_neg hc] at h
      cases hlk : List.lookup name M with
      | none => rw [hlk] at h; exact Except.noConfusion h
      | some manifest =>
        rw [hlk] at h
        dsimp only at h
        cases hmt : manifest.mediaType with
        | none =>
          rw [hmt] at h; cases h
          intro x hx
          rcases List.mem_cons.mp hx with rfl | hxs
          · right
            intro man hman mt hmt2 hidx2 d hd dg hdg
            rw [hlk] at hman
            cases Option.some.inj hman
            rw [hmt] at hmt2
            exact Option.noConfusion hmt2
          · exact Or.inl hxs
        | some mediaType =>
          rw [hmt] at h
          dsimp only at h
          by_cases hidx : indexTypes.contains mediaType = true
          · rw [if_pos hidx] at h
            intro x hx
            rcases retainChildren_closed M (fun s2 digest => retain M f s2 digest)
                (fun s2 n s2' hh => ih s2 n s2' hh)
                (fun s2 n s2' hh => retain_sub M f s2 n s2' hh) _ _ _ _ h x hx with
              hx1 | hclx
            · rcases List.mem_cons.mp hx1 with rfl | hxs
              · right
                intro man hman mt hmt2 hidx2 d hd dg hdg
                rw [hlk] at hman
                cases Option.some.inj hman
                exact retainChildren_digests M (fun s2 digest => retain M f s2 digest)
                  (fun s2 n s2' hh => retain_mem M f s2 n s2' hh)
                  (fun s2 n s2' hh => retain_sub M f s2 n s2' hh) _ _ _ _ h d hd dg hdg
              · exact Or.inl hxs
            · exact Or.inr hclx
          · rw [if_neg hidx] at h
            cases h
            intro x hx
            rcases List.mem_cons.mp hx with rfl | hxs
            · right
              intro man hman mt hmt2 hidx2 d hd dg hdg
              rw [hlk] at hman
              cases Option.some.inj hman
              rw [hmt] at hmt2
              cases Option.some.inj hmt2
              exact absurd hidx2 hidx
            · exact Or.inl hxs

theorem markPhase_sub (policy : RetentionPolicy) (M : List (String × Manifest)) (fuel : Nat) :
    ∀ (entries : List (String × PackageVersion)) (s R : List String),
      markPhase policy M fuel entries s = .ok R → s ⊆ R := by
  intro entries
  induction entries with
  | nil =>
    intro s R h
    simp only [markPhase] at h
    cases h
    exact fun x hx => hx
  | cons e rest ih =>
    intro s R h
    obtain ⟨name, version⟩ := e
    simp only [markPhase] at h
    cases ho : policy.isOutdated version with
    | error e2 => rw [ho] at h; exact Except.noConfusion h
    | ok b =>
      rw [ho] at h
      dsimp only at h
      cases b with
      | true =>
        rw [if_pos rfl] at h
        exact ih s R h
      | false =>
        rw [if_neg (by simp)] at h
        cases hr : retain M fuel s name with
        | error e3 => rw [hr] at h; exact Except.noConfusion h
        | ok s2 =>
          rw [hr] at h
          dsimp only at h
          exact fun x hx => ih s2 R h (retain_sub M fuel s name s2 hr hx)

theorem markPhase_closed (policy : RetentionPolicy) (M : List (String × Manifest)) (fuel : Nat) :
    ∀ (entries : List (String × PackageVersion)) (s R : List String),
      markPhase policy M fuel entries s = .ok R →
      ∀ x ∈ R, x ∈ s ∨ childClosed M x R := by
  intro entries
  induction entries with
  | nil =>
    intro s R h
    simp only [markPhase] at h
    cases h
    exact fun x hx => Or.inl hx
  | cons e rest ih =>
    intro s R h
    obtain ⟨name, version⟩ := e
    simp only [markPhase] at h
    cases ho : policy.isOutdated version with
    | error e2 => rw [ho] at h; exact Except.noConfusion h
    | ok b =>
      rw [ho] at h
      dsimp only at h
      cases b with
      | true =>
        rw [if_pos rfl] at h
        exact ih s R h
      | false =>
        rw [if_neg (by simp)] at h
        cases hr : retain M fuel s name with
        | error e3 => rw [hr] at h; exact Except.noConfusion h
        | ok s2 =>
          rw [hr] at h
          dsimp only at h
          intro x hx
          rcases ih s2 R h x hx with hx2 | hclx
          · rcases retain_closed M fuel s name s2 hr x hx2 with hxs | hclx2
            · exact Or.inl hxs
            · exact Or.inr (childClosed_mono M x s2 R (markPhase_sub policy M fuel rest s2 R h) hclx2)
          · exact Or.inr hclx

theorem markPhase_keys (policy : RetentionPolicy) (M : List (String × Manifest)) (fuel : Nat) :
    ∀ (entries : List (String × PackageVersion)) (s R : List String),
      markPhase policy M fuel entries s = .ok R →
      ∀ x ∈ R, x ∈ s ∨ (List.lookup x M).isSome = true := by
  intro entries
  induction entries with
  | nil =>
    intro s R h
    simp only [markPhase] at h
    cases h
    exact fun x hx => Or.inl hx
  | cons e rest ih =>
    intro s R h
    obtain ⟨name, version⟩ := e
    simp only [markPhase] at h
    cases ho : policy.isOutdated version with
    | error e2 => rw [ho] at h; exact Except.noConfusion h
    | ok b =>
      rw [ho] at h
      dsimp only at h
      cases b with
      | true =>
        rw [if_pos rfl] at h
        exact ih s R h
      | false =>
        rw [if_neg (by simp)] at h
        cases hr : retain M fuel s name with
        | error e3 => rw [hr] at h; exact Except.noConfusion h
        | ok s2 =>
          rw [hr] at h
          dsimp only at h
          intro x hx
          rcases ih s2 R h x hx with hx2 | hsome
          · exact retain_keys M fuel s name s2 hr x hx2
          · exact Or.inr hsome

/-- One parent-to-child edge of the manifest graph: `a`'s cached manifest is an
index type and has a child descriptor whose digest is `b`. -/
def ChildStep (M : List (String × Manifest)) (a b : String) : Prop :=
  ∃ man, List.lookup a M = some man ∧ ∃ mt, man.mediaType = some mt ∧
    indexTypes.contains mt = true ∧ ∃ d ∈ man.manifests.getD [], d.digest = some b

theorem closed_reaches (M : List (String × Manifest)) (R : List String)
    (hcl : ∀ x ∈ R, childClosed M x R) :
    ∀ n m, Relation.ReflTransGen (ChildStep M) n m → n ∈ R → m ∈ R := by
  intro n m h
  induction h with
  | refl => exact fun hn => hn
  | tail hab hbc ih =>
    intro hn
    have hb := ih hn
    obtain ⟨man, hman, mt, hmt, hidx, d, hd, hdg⟩ := hbc
    exact hcl _ hb man hman mt hmt hidx d hd _ hdg

/-! ## Sweep lemmas -/

theorem sweep_skips_retained (deleteResult : Int → Except String Unit) (dryRun : Bool)
    (retained : List String) :
    ∀ (entries : List (String × PackageVersion)) (deleted : List PackageVersion)
      (issued : List Int) (out : List PackageVersion) (outIss : List Int)
      (err : Option String),
      sweep deleteResult dryRun retained deleted issued entries = (out, outIss, err) →
      (∀ v ∈ out, v ∈ deleted ∨
        ∃ q, q ∈ entries ∧ q.2 = v ∧ retained.contains q.1 = false) ∧
      (∀ i ∈ outIss, i ∈ issued ∨
        ∃ q, q ∈ entries ∧ q.2.id = i ∧ retained.contains q.1 = false) := by
  intro entries
  induction entries with
  | nil =>
    intro deleted issued out outIss err h
    simp only [sweep] at h
    cases h
    exact ⟨fun v hv => Or.inl hv, fun i hi => Or.inl hi⟩
  | cons q rest ih =>
    intro deleted issued out outIss err h
    obtain ⟨name, version⟩ := q
    simp only [sweep] at h
    by_cases hc : retained.contains name = true
    · rw [if_pos hc] at h
      obtain ⟨hv, hi⟩ := ih _ _ _ _ _ h
      constructor
      · intro v hvo
        rcases hv v hvo with hd | ⟨q, hq, hq2, hq3⟩
        · exact Or.inl hd
        · exact Or.inr ⟨q, List.mem_cons_of_mem _ hq, hq2, hq3⟩
      · intro i hio
        rcases hi i hio with hd | ⟨q, hq, hq2, hq3⟩
        · exact Or.inl hd
        · exact Or.inr ⟨q, List.mem_cons_of_mem _ hq, hq2, hq3⟩
    · have hcf : retained.contains name = false := by
        revert hc; cases retained.contains name <;> simp
      rw [if_neg hc] at h
      cases dryRun with
      | true =>
        rw [if_pos rfl] at h
        obtain ⟨hv, hi⟩ := ih _ _ _ _ _ h
        constructor
        · intro v hvo
          rcases hv v hvo with hd | ⟨q, hq, hq2, hq3⟩
          · rcases List.mem_append.mp hd with hd1 | hd2
            · exact Or.inl hd1
            · have : v = version := List.mem_singleton.mp hd2
              exact Or.inr ⟨(name, version), List.mem_cons_self _ _, this.symm, hcf⟩
          · exact Or.inr ⟨q, List.mem_cons_of_mem _ hq, hq2, hq3⟩
        · intro i hio
          rcases hi i hio with hd | ⟨q, hq, hq2, hq3⟩
          · exact Or.inl hd
          · exact Or.inr ⟨q, List.mem_cons_of_mem _ hq, hq2, hq3⟩
      | false =>
        rw [if_neg (by simp)] at h
        cases hdel : deleteResult version.id with
        | error e2 =>
          rw [hdel] at h
          dsimp only at h
          cases h
          constructor
          · exact fun v hv => Or.inl hv
          · intro i hio
            rcases List.mem_append.mp hio with hd1 | hd2
            · exact Or.inl hd1
            · have : i = version.id := List.mem_singleton.mp hd2
              exact Or.inr ⟨(name, version), List.mem_cons_self _ _, this.symm, hcf⟩
        | ok u =>
          rw [hdel] at h
          dsimp only at h
          obtain ⟨hv, hi⟩ := ih _ _ _ _ _ h
          constructor
          · intro v hvo
            rcases hv v hvo with hd | ⟨q, hq, hq2, hq3⟩
            · rcases List.mem_append.mp hd with hd1 | hd2
              · exact Or.inl hd1
              · have : v = version := List.mem_singleton.mp hd2
                exact Or.inr ⟨(name, version), List.mem_cons_self _ _, this.symm, hcf⟩
            · exact Or.inr ⟨q, List.mem_cons_of_mem _ hq, hq2, hq3⟩
          · intro i hio
            rcases hi i hio with hd | ⟨q, hq, hq2, hq3⟩
            · rcases List.mem_append.mp hd with hd1 | hd2
              · exact Or.inl hd1
              · have : i = version.id := List.mem_singleton.mp hd2
                exact Or.inr ⟨(name, version), List.mem_cons_self _ _, this.symm, hcf⟩
            · exact Or.inr ⟨q, List.mem_cons_of_mem _ hq, hq2, hq3⟩

theorem sweep_fail (deleteResult : Int → Except String Unit) (retained : List String) :
    ∀ (entries : List (String × PackageVersion)) (deleted : List PackageVersion)
      (issued : List Int) (out : List PackageVersion) (outIss : List Int) (e : String),
      sweep deleteResult false retained deleted issued entries = (out, outIss, some e) →
      ∃ pre nv post, entries = pre ++ nv :: post ∧
        retained.contains nv.1 = false ∧
        deleteResult nv.2.id = .error e ∧
        out = deleted ++ (pre.filter fun q => !(retained.contains q.1)).map Prod.snd ∧
        outIss = issued ++
          ((pre.filter fun q => !(retained.contains q.1)).map fun q => q.2.id) ++ [nv.2.id] := by
  intro entries
  induction entries with
  | nil =>
    intro deleted issued out outIss e h
    simp only [sweep] at h
    exact absurd (congrArg (fun t => t.2.2) h) (by simp)
  | cons q rest ih =>
    intro deleted issued out outIss e h
    obtain ⟨name, version⟩ := q
    simp only [sweep] at h
    by_cases hc : retained.contains name = true
    · rw [if_pos hc] at h
      obtain ⟨pre, nv, post, hsplit, hnv, hdel, hout, hiss⟩ := ih _ _ _ _ _ h
      refine ⟨(name, version) :: pre, nv, post, by rw [hsplit]; rfl, hnv, hdel, ?_, ?_⟩
      · rw [hout, List.filter_cons]
        simp only [hc, Bool.not_true]
        rfl
      · rw [hiss, List.filter_cons]
        simp only [hc, Bool.not_true]
        rfl
    · have hcf : retained.contains name = false := by
        revert hc; cases retained.contains name <;> simp
      rw [if_neg hc, if_neg (by simp)] at h
      cases hdel : deleteResult version.id with
      | error e2 =>
        rw [hdel] at h
        dsimp only at h
        cases h
        refine ⟨[], (name, version), rest, rfl, hcf, hdel, ?_, ?_⟩
        · simp
        · simp
      | ok u =>
        rw [hdel] at h
        dsimp only at h
        obtain ⟨pre, nv, post, hsplit, hnv, hdel2, hout, hiss⟩ := ih _ _ _ _ _ h
        refine ⟨(name, version) :: pre, nv, post, by rw [hsplit]; rfl, hnv, hdel2, ?_, ?_⟩
        · rw [hout, List.filter_cons]
          simp only [hcf, Bool.not_false, if_pos]
          simp
        · rw [hiss, List.filter_cons]
          simp only [hcf, Bool.not_false, if_pos]
          simp

/-! ## Claim theorems -/

/-- Claim C1: after a mark phase that completes successfully from the empty set,
every name in the final reachability set has all its transitively referenced
child descriptor digests in the set (whatever the children's tags or update
times, which the statement does not even mention), and the sweep only ever
deletes — or issues a delete call for — versions whose catalog name is NOT in
that set. -/
theorem reachability_soundness (policy : RetentionPolicy) (M : List (String × Manifest))
    (fuel : Nat) (entries : List (String × PackageVersion)) (R : List String)
    (hmark : markPhase policy M fuel entries [] = .ok R) :
    (∀ n ∈ R, ∀ m, Relation.ReflTransGen (ChildStep M) n m → m ∈ R) ∧
    (∀ (deleteResult : Int → Except String Unit) (dryRun : Bool)
       (entries2 : List (String × PackageVersion)) (out : List PackageVersion)
       (outIss : List Int) (err : Option String),
      sweep deleteResult dryRun R [] [] entries2 = (out, outIss, err) →
      (∀ v ∈ out, ∃ q, q ∈ entries2 ∧ q.2 = v ∧ R.contains q.1 = false) ∧
      (∀ i ∈ outIss, ∃ q, q ∈ entries2 ∧ q.2.id = i ∧ R.contains q.1 = false)) := by
  constructor
  · have hcl : ∀ x ∈ R, childClosed M x R := by
      intro x hx
      rcases markPhase_closed policy M fuel entries [] R hmark x hx with h0 | hclx
      · exact absurd h0 (List.not_mem_nil x)
      · exact hclx
    intro n hn m hreach
    exact closed_reaches M R hcl n m hreach hn
  · intro deleteResult dryRun entries2 out outIss err hsweep
    obtain ⟨hv, hi⟩ := sweep_skips_retained deleteResult dryRun R entries2 [] [] out outIss err hsweep
    constructor
    · intro v hvo
      rcases hv v hvo with h0 | hq
      · exact absurd h0 (List.not_mem_nil v)
      · exact hq
    · intro i hio
      rcases hi i hio with h0 | hq
      · exact absurd h0 (List.not_mem_nil i)
      · exact hq

theorem idsMatch_maps : ∀ (a b : List PackageVersion), a.length = b.length →
    (idsMatch a b = true ↔ a.map (fun v => v.id) = b.map (fun v => v.id)) := by
  intro a
  induction a with
  | nil =>
    intro b hlen
    cases b with
    | nil => simp [idsMatch]
    | cons w wrest => simp at hlen
  | cons v rest ih =>
    intro b hlen
    cases b with
    | nil => simp at hlen
    | cons w wrest =>
      have hlen2 : rest.length = wrest.length := by simpa using hlen
      simp only [idsMatch, List.map_cons, Bool.and_eq_true, beq_iff_eq, List.cons.injEq]
      rw [ih wrest hlen2]

/-- Claim C6: the catalog fetches the full version list twice and accepts —
returning the second fetch — exactly when both fetches have the same count and
the same identifier sequence; otherwise it raises the concurrent-modification
error, and a run whose catalog raises it issues no delete call and produces no
outputs. -/
theorem catalog_dual_fetch_consistency :
    (∀ a b : List PackageVersion,
      getAllVersionsStable a b = .ok b ↔
        a.length = b.length ∧ a.map (fun v => v.id) = b.map (fun v => v.id)) ∧
    (∀ (env : RunEnv) (e : String),
      getAllVersionsStable env.fetchA env.fetchB = .error e →
      mainRun env = { deletedOutput := none, issuedDeletes := [], failure := some e }) := by
  constructor
  · intro a b
    unfold getAllVersionsStable
    by_cases hcond : a.length = b.length ∧ idsMatch a b = true
    · rw [if_pos hcond]
      constructor
      · intro _; exact ⟨hcond.1, (idsMatch_maps a b hcond.1).mp hcond.2⟩
      · intro _; rfl
    · rw [if_neg hcond]
      constructor
      · intro hx; exact absurd hx (by simp)
      · intro ⟨hl, hm⟩; exact absurd ⟨hl, (idsMatch_maps a b hl).mpr hm⟩ hcond
  · intro env e he
    unfold mainRun
    rw [he]

/-- Claim C7: `retain` is idempotent — running it a second time on the state the
first run produced changes nothing and propagates the same error — and the
reachability set only ever grows, both per `retain` call and across the whole
sequence of `retain` calls of a mark phase. -/
theorem retain_idempotent_monotone (M : List (String × Manifest)) :
    (∀ fuel s name,
      ((retain M fuel s name).bind fun s' => retain M fuel s' name) =
        retain M fuel s name) ∧
    (∀ fuel s name s', retain M fuel s name = .ok s' → s ⊆ s') ∧
    (∀ (policy : RetentionPolicy) (fuel : Nat) (entries : List (String × PackageVersion))
       (s R : List String), markPhase policy M fuel entries s = .ok R → s ⊆ R) := by
  refine ⟨?_, retain_sub M,
    fun policy fuel entries s R h => markPhase_sub policy M fuel entries s R h⟩
  intro fuel s name
  cases h : retain M fuel s name with
  | error e => rfl
  | ok s' =>
    have hmem := retain_mem M fuel s name s' h
    have hsecond : retain M fuel s' name = .ok s' := by
      rw [retain.eq_def]
      dsimp only
      rw [if_pos ((contains_true_iff _ _).mpr hmem)]
    exact hsecond

/-- Claim C9: `retain` throws the "Missing manifest" error — leaving the
retained set exactly as it was — whenever the name is not already retained and
absent from the manifest cache; consequently the retained set of a successful
mark phase contains only cataloged (cached) names. -/
theorem retain_missing_manifest (M : List (String × Manifest)) :
    (∀ fuel s name, s.contains name = false → List.lookup name M = none →
      retain M fuel s name = .error ("Missing manifest: " ++ name, s)) ∧
    (∀ (policy : RetentionPolicy) (fuel : Nat) (entries : List (String × PackageVersion))
       (R : List String), markPhase policy M fuel entries [] = .ok R →
      ∀ x ∈ R, (List.lookup x M).isSome = true) := by
  constructor
  · intro fuel s name hc hlk
    rw [retain.eq_def]
    dsimp only
    rw [if_neg (fun hx => Bool.noConfusion (hc.symm.trans hx)), hlk]
  · intro policy fuel entries R h x hx
    rcases markPhase_keys policy M fuel entries [] R h x hx with hx0 | hsome
    · exact absurd hx0 (List.not_mem_nil x)
    · exact hsome

/-- Claim C10: `retain` treats an index manifest whose child-descriptor list is
absent as having zero children and succeeds; it never recurses for a manifest
whose media type is missing or a non-index (leaf) type, whatever that
manifest's `manifests` field holds; and a descriptor that is present but lacks
a digest raises the "Missing digest" error.  (`f + 1` supplies the recursion
budget the source does not need to spell out.) -/
theorem retain_child_list_shape (M : List (String × Manifest)) (s : List String)
    (name : String) (manifest : Manifest)
    (hc : s.contains name = false)
    (hlk : List.lookup name M = some manifest) :
    (∀ mt, manifest.mediaType = some mt → indexTypes.contains mt = true →
      manifest.manifests = none → ∀ f, retain M (f + 1) s name = .ok (name :: s)) ∧
    ((manifest.mediaType = none ∨
      ∃ mt, manifest.mediaType = some mt ∧ indexTypes.contains mt = false) →
      ∀ fuel, retain M fuel s name = .ok (name :: s)) ∧
    (∀ mt descs, manifest.mediaType = some mt → indexTypes.contains mt = true →
      manifest.manifests = some descs →
      ∀ d rest, descs = d :: rest → d.digest = none →
      ∀ f, retain M (f + 1) s name =
        .error ("Missing digest in descriptor of child manifest of " ++ name, name :: s)) := by
  have hcneg : ¬(s.contains name = true) := fun hx => Bool.noConfusion (hc.symm.trans hx)
  refine ⟨?_, ?_, ?_⟩
  · intro mt hmt hidx hman f
    rw [retain.eq_def]
    dsimp only
    rw [if_neg hcneg, hlk]
    dsimp only
    rw [hmt]
    dsimp only
    rw [if_pos hidx, hman]
    rfl
  · intro hleaf fuel
    rw [retain.eq_def]
    dsimp only
    rw [if_neg hcneg, hlk]
    dsimp only
    rcases hleaf with hnone | ⟨mt, hmt, hidx⟩
    · rw [hnone]
    · rw [hmt]
      dsimp only
      rw [if_neg (fun hx => Bool.noConfusion (hidx.symm.trans hx))]
  · intro mt descs hmt hidx hman d rest hcons hdg f
    rw [retain.eq_def]
    dsimp only
    rw [if_neg hcneg, hlk]
    dsimp only
    rw [hmt]
    dsimp only
    rw [if_pos hidx, hman, hcons]
    show retainChildren (fun s2 digest => retain M f s2 digest) name (name :: s) (d :: rest) =
      Except.error ("Missing digest in descriptor of child manifest of " ++ name, name :: s)
    simp only [retainChildren]
    rw [hdg]

/-- Claim C8: when the sweep's delete call fails partway through, the run's
outputs are still produced (the `finally` block) and list exactly the
non-retained versions processed before the failing entry, the failing delete
was issued for a non-retained entry, and the run reports the failure. -/
theorem sweep_failure_reports_partial (env : RunEnv) (vs : List PackageVersion)
    (versions : List (String × PackageVersion)) (manifests : List (String × Manifest))
    (R : List String) (out : List PackageVersion) (outIss : List Int) (e : String)
    (h1 : getAllVersionsStable env.fetchA env.fetchB = .ok vs)
    (h2 : buildCatalog env.responses vs [] [] = .ok (versions, manifests))
    (h3 : markPhase env.policy manifests (manifests.length + 1) versions [] = .ok R)
    (h4 : env.dryRun = false)
    (h5 : sweep env.deleteResult false R [] [] versions = (out, outIss, some e)) :
    mainRun env = { deletedOutput := some out, issuedDeletes := outIss, failure := some e } ∧
    ∃ pre nv post, versions = pre ++ nv :: post ∧
      R.contains nv.1 = false ∧
      env.deleteResult nv.2.id = .error e ∧
      out = (pre.filter fun q => !(R.contains q.1)).map Prod.snd ∧
      outIss = ((pre.filter fun q => !(R.contains q.1)).map fun q => q.2.id) ++ [nv.2.id] := by
  constructor
  · unfold mainRun
    rw [h1]
    dsimp only
    rw [h2]
    dsimp only
    rw [h3]
    dsimp only
    rw [h4, h5]
  · obtain ⟨pre, nv, post, hsplit, hnv, hdel, hout, hiss⟩ :=
      sweep_fail env.deleteResult R versions [] [] out outIss e h5
    exact ⟨pre, nv, post, hsplit, hnv, hdel, by simpa using hout, by simpa using hiss⟩

/-! ## Concrete scenario used by the witnesses -/

/-- A two-child OCI index manifest. -/
def idxManifest : Manifest :=
  { mediaType := some "application/vnd.oci.image.index.v1+json",
    manifests := some [{ mediaType := none, digest := some "sha1" },
                       { mediaType := none, digest := some "sha2" }] }

/-- A single-platform (leaf) manifest. -/
def leafManifest : Manifest :=
  { mediaType := some "application/vnd.oci.image.manifest.v1+json", manifests := none }

/-- An index manifest with no `manifests` field at all. -/
def emptyIdxManifest : Manifest :=
  { mediaType := some "application/vnd.docker.distribution.manifest.list.v2+json",
    manifests := none }

/-- A leaf manifest that nevertheless carries a (malformed) descriptor list. -/
def leafWithChildren : Manifest :=
  { mediaType := some "application/vnd.docker.distribution.manifest.v2+json",
    manifests := some [{ mediaType := none, digest := none }] }

/-- An index manifest whose first descriptor lacks a digest. -/
def badIdxManifest : Manifest :=
  { mediaType := some "application/vnd.oci.image.index.v1+json",
    manifests := some [{ mediaType := none, digest := none }] }

def M0 : List (String × Manifest) :=
  [("idx", idxManifest), ("sha1", leafManifest), ("sha2", leafManifest)]

def M10 : List (String × Manifest) :=
  [("eidx", emptyIdxManifest), ("leafkids", leafWithChildren), ("badidx", badIdxManifest)]

/-- No patterns, only an untagged retention deadline. -/
def P0 : RetentionPolicy :=
  { tagPatterns := [], matchingTagRetentionDeadline := none,
    mismatchingTagRetentionDeadline := none, untaggedRetentionDeadline := some 100 }

def vIdx : PackageVersion :=
  { id := 1, name := "idx",
    metadata := some { container := some { tags := ["latest"] } }, updated_at := 0 }

def vSha1 : PackageVersion :=
  { id := 2, name := "sha1",
    metadata := some { container := some { tags := [] } }, updated_at := 0 }

def vSha2 : PackageVersion :=
  { id := 3, name := "sha2",
    metadata := some { container := some { tags := [] } }, updated_at := 0 }

def entries0 : List (String × PackageVersion) :=
  [("idx", vIdx), ("sha1", vSha1), ("sha2", vSha2)]

/-- A rule matching exactly the tag `latest`. -/
def matchLatestRule : GlobRule :=
  { matchTag := fun t => t == "latest", negate := false, comment := false, empty := false }

/-- An exclude rule matching exactly the tag `bad`. -/
def excludeBadRule : GlobRule :=
  { matchTag := fun t => t == "bad", negate := true, comment := false, empty := false }

def P2 : RetentionPolicy :=
  { tagPatterns := [matchLatestRule], matchingTagRetentionDeadline := some 10,
    mismatchingTagRetentionDeadline := some 20, untaggedRetentionDeadline := none }

def vMixed : PackageVersion :=
  { id := 5, name := "mixed",
    metadata := some { container := some { tags := ["latest", "other"] } }, updated_at := 0 }

def vLone : PackageVersion :=
  { id := 7, name := "lone",
    metadata := some { container := some { tags := [] } }, updated_at := 0 }

/-- A run whose two catalog fetches disagree. -/
def envTorn : RunEnv :=
  { fetchA := [vIdx], fetchB := [], responses := fun _ => none,
    deleteResult := fun _ => .ok (), dryRun := false, policy := P0 }

/-- A run whose single delete call fails. -/
def envDeleteFails : RunEnv :=
  { fetchA := [vLone], fetchB := [vLone], responses := fun _ => some leafManifest,
    deleteResult := fun _ => .error "boom", dryRun := false, policy := P0 }

/-! ## Witnesses -/

theorem reachability_soundness_witness :
    "sha1" ∈ ["sha2", "sha1", "idx"] ∧ "sha2" ∈ ["sha2", "sha1", "idx"] := by
  have h := reachability_soundness P0 M0 4 entries0 ["sha2", "sha1", "idx"] rfl
  constructor
  · exact h.1 "idx" (by decide) "sha1"
      (Relation.ReflTransGen.single
        ⟨idxManifest, rfl, "application/vnd.oci.image.index.v1+json", rfl, rfl,
          ⟨{ mediaType := none, digest := some "sha1" }, by decide, rfl⟩⟩)
  · exact h.1 "idx" (by decide) "sha2"
      (Relation.ReflTransGen.single
        ⟨idxManifest, rfl, "application/vnd.oci.image.index.v1+json", rfl, rfl,
          ⟨{ mediaType := none, digest := some "sha2" }, by decide, rfl⟩⟩)

theorem mixed_tags_deadline_witness :
    RetentionPolicy.getRetentionDeadline P2 vMixed = .ok (some 10) := by
  have h := mixed_tags_deadline P2 vMixed
    (VersionMetadata.mk (some (ContainerMetadata.mk ["latest", "other"])))
    (ContainerMetadata.mk ["latest", "other"]) rfl rfl
    ⟨"latest", by decide, rfl⟩ ⟨"other", by decide, rfl⟩
  have hmin : min (10 : Int) 20 = 10 := by decide
  rw [h.2 10 20 rfl rfl, hmin]

theorem outdated_iff_witness :
    RetentionPolicy.isOutdated P0 vSha1 = .ok true ∧
    RetentionPolicy.getRetentionDeadline P0 vSha1 = .ok (some 100) := by
  have h := outdated_iff_before_deadline P0 vSha1
  constructor
  · exact h.1.mpr ⟨100, rfl, by decide⟩
  · exact h.2.2 (VersionMetadata.mk (some (ContainerMetadata.mk [])))
      (ContainerMetadata.mk []) rfl rfl rfl

theorem exclude_only_config_witness :
    buildTagPatterns [excludeBadRule] = [excludeBadRule, catchAllRule] ∧
    RetentionPolicy.isMatchingTag
      { tagPatterns := buildTagPatterns [excludeBadRule],
        matchingTagRetentionDeadline := none,
        mismatchingTagRetentionDeadline := none,
        untaggedRetentionDeadline := none } "good" = true := by
  have hcfg : configuredRules [excludeBadRule] = [excludeBadRule] := rfl
  have h := exclude_only_config_appends_catch_all [excludeBadRule] none none none
    (by rw [hcfg]; exact fun hx => List.noConfusion hx)
    (by intro r hr; rw [hcfg] at hr; rw [List.mem_singleton.mp hr]; rfl)
  constructor
  · rw [h.1, hcfg]; rfl
  · exact h.2 "good" (by intro r hr; rw [hcfg] at hr; rw [List.mem_singleton.mp hr]; rfl)

theorem catalog_dual_fetch_witness :
    mainRun envTorn =
      { deletedOutput := none,
        issuedDeletes := [],
        failure := some "Possible concurrent modification detected, pagination results may be incorrect" } := by
  exact catalog_dual_fetch_consistency.2 envTorn _ rfl

theorem retain_idempotent_witness :
    retain M0 4 ["sha2", "sha1", "idx"] "idx" = .ok ["sha2", "sha1", "idx"] ∧
    ([] : List String) ⊆ ["sha2", "sha1", "idx"] := by
  have h := retain_idempotent_monotone M0
  constructor
  · exact h.1 4 [] "idx"
  · exact h.2.2 P0 4 entries0 [] ["sha2", "sha1", "idx"] rfl

theorem sweep_failure_witness :
    mainRun envDeleteFails =
      { deletedOutput := some [],
        issuedDeletes := [7],
        failure := some "boom" } := by
  have h := sweep_failure_reports_partial envDeleteFails [vLone] [("lone", vLone)]
    [("lone", leafManifest)] [] [] [7] "boom" rfl rfl rfl rfl rfl
  exact h.1

theorem retain_missing_witness :
    retain M0 4 [] "ghost" = .error ("Missing manifest: ghost", []) ∧
    (∀ x ∈ ["sha2", "sha1", "idx"], (List.lookup x M0).isSome = true) := by
  have h := retain_missing_manifest M0
  exact ⟨h.1 4 [] "ghost" rfl rfl, h.2 P0 4 entries0 ["sha2", "sha1", "idx"] rfl⟩

theorem retain_child_list_witness :
    retain M10 1 [] "eidx" = .ok ["eidx"] ∧
    retain M10 0 [] "leafkids" = .ok ["leafkids"] ∧
    retain M10 1 [] "badidx" =
      .error ("Missing digest in descriptor of child manifest of badidx", ["badidx"]) := by
  refine ⟨?_, ?_, ?_⟩
  · exact (retain_child_list_shape M10 [] "eidx" emptyIdxManifest rfl rfl).1
      "application/vnd.docker.distribution.manifest.list.v2+json" rfl rfl rfl 0
  · exact (retain_child_list_shape M10 [] "leafkids" leafWithChildren rfl rfl).2.1
      (Or.inr ⟨"application/vnd.docker.distribution.manifest.v2+json", rfl, rfl⟩) 0
  · exact (retain_child_list_shape M10 [] "badidx" badIdxManifest rfl rfl).2.2
      "application/vnd.oci.image.index.v1+json" [{ mediaType := none, digest := none }]
      rfl rfl rfl { mediaType := none, digest := none } [] rfl rfl 0
